import Mathlib

/-!
Verification development for the ReBACH preservation pipeline sources
(`figshare/Utils.py`, `bagger/wasabi.py`, `redata_preservation/wasabi.py`).

The Python values handled by the code (parsed JSON) are embedded as the
inductive type `Json`.  Python dicts are association lists in insertion
order; real Python dicts never carry duplicate keys, and theorems that
depend on key uniqueness take an explicit `Nodup` hypothesis.  Fallible
Python code (raising exceptions) is embedded with `Option`\`Except`
results, and the unbounded retry loop of the registry lookup is embedded
with an explicit fuel parameter.
-/

/-- JSON-like Python value: None, bool, int, str, list, dict. -/
inductive Json where
  | null : Json
  | bool (b : Bool) : Json
  | num (n : Int) : Json
  | str (s : String) : Json
  | arr (l : List Json) : Json
  | obj (kvs : List (String × Json)) : Json

/-- `isinstance(x, dict)`. -/
def Json.isObjB : Json → Bool
  | .obj _ => true
  | _ => false

/-- Python `sub in s` on strings: substring containment. -/
def pyIn (sub s : String) : Bool := decide (List.IsInfix sub.data s.data)

/-- Split a character list at every occurrence of `c`, keeping empty
segments — the behaviour of Python `line.split(sep)` for a one-character
separator. -/
def splitCharList (c : Char) : List Char → List (List Char)
  | [] => [[]]
  | x :: xs =>
    match splitCharList c xs with
    | [] => [[]]
    | h :: t => if x = c then [] :: h :: t else (x :: h) :: t

/-- The trailing segment after the last occurrence of `c`; the whole list
when `c` does not occur.  This is Python `line.rsplit(sep, 1)[-1]` for a
one-character separator. -/
def rsplit1Last (c : Char) : List Char → List Char
  | [] => []
  | x :: xs =>
    if c ∈ xs then rsplit1Last c xs
    else if x = c then xs
    else x :: xs

theorem splitCharList_ne_nil (c : Char) (l : List Char) : splitCharList c l ≠ [] := by
  cases l with
  | nil => simp [splitCharList]
  | cons x xs =>
    simp only [splitCharList]
    split
    · simp
    · split <;> simp

theorem splitCharList_of_not_mem (c : Char) (l : List Char) (h : c ∉ l) :
    splitCharList c l = [l] := by
  induction l with
  | nil => rfl
  | cons x xs ih =>
    have hx : x ≠ c := fun he => h (he ▸ List.mem_cons_self x xs)
    have hxs : c ∉ xs := fun hm => h (List.mem_cons_of_mem x hm)
    simp [splitCharList, ih hxs, hx]

theorem rsplit1Last_of_not_mem (c : Char) (l : List Char) (h : c ∉ l) :
    rsplit1Last c l = l := by
  induction l with
  | nil => rfl
  | cons x xs ih =>
    have hx : x ≠ c := fun he => h (he ▸ List.mem_cons_self x xs)
    have hxs : c ∉ xs := fun hm => h (List.mem_cons_of_mem x hm)
    simp [rsplit1Last, hxs, hx]

theorem splitCharList_length_of_mem (c : Char) (l : List Char) (h : c ∈ l) :
    2 ≤ (splitCharList c l).length := by
  induction l with
  | nil => cases h
  | cons x xs ih =>
    simp only [splitCharList]
    cases hs : splitCharList c xs with
    | nil => exact absurd hs (splitCharList_ne_nil c xs)
    | cons h0 t =>
      by_cases hx : x = c
      · simp [hx]
      · have hm : c ∈ xs := by
          rcases List.mem_cons.mp h with h1 | h1
          · exact absurd h1.symm hx
          · exact h1
        have := ih hm
        rw [hs] at this
        simp only [if_neg hx, List.length_cons] at *
        omega

/-- Python negative index `l[-1]` with a default for the empty list (the
call sites below always apply it to nonempty lists). -/
def pyLastD (d : α) : List α → α
  | [] => d
  | [a] => a
  | _ :: b :: t => pyLastD d (b :: t)

/-- The last field of a full split equals the tail after the last
separator: `line.split(c)[-1] = line.rsplit(c, 1)[-1]`. -/
theorem pyLastD_splitCharList (c : Char) (l : List Char) :
    pyLastD [] (splitCharList c l) = rsplit1Last c l := by
  induction l with
  | nil => rfl
  | cons x xs ih =>
    simp only [splitCharList, rsplit1Last]
    cases hs : splitCharList c xs with
    | nil => exact absurd hs (splitCharList_ne_nil c xs)
    | cons h0 t =>
      rw [hs] at ih
      by_cases hx : x = c
      · simp only [if_pos hx]
        by_cases hm : c ∈ xs
        · rw [if_pos hm]
          calc pyLastD [] ([] :: h0 :: t) = pyLastD [] (h0 :: t) := rfl
            _ = rsplit1Last c xs := ih
        · rw [splitCharList_of_not_mem c xs hm] at hs
          cases hs
          rw [if_neg hm]
          rfl
      · simp only [if_neg hx]
        by_cases hm : c ∈ xs
        · rw [if_pos hm]
          cases t with
          | nil =>
            have hlen := splitCharList_length_of_mem c xs hm
            rw [hs] at hlen
            simp at hlen
          | cons b t' =>
            calc pyLastD [] ((x :: h0) :: b :: t') = pyLastD [] (b :: t') := rfl
              _ = pyLastD [] (h0 :: b :: t') := rfl
              _ = rsplit1Last c xs := ih
        · rw [splitCharList_of_not_mem c xs hm] at hs
          cases hs
          rw [if_neg hm]
          rfl

/-- Python `s.splitlines()` restricted to the line breaks the sources can
meet (LF, CR, CRLF): splits on them, producing no trailing empty line for
a trailing break. -/
def splitlinesChars : List Char → List Char → List String
  | acc, [] => if acc.isEmpty then [] else [String.mk acc.reverse]
  | acc, '\n' :: rest => String.mk acc.reverse :: splitlinesChars [] rest
  | acc, '\r' :: '\n' :: rest => String.mk acc.reverse :: splitlinesChars [] rest
  | acc, '\r' :: rest => String.mk acc.reverse :: splitlinesChars [] rest
  | acc, ch :: rest => splitlinesChars (ch :: acc) rest

/-- Python `s.splitlines()`. -/
def splitlinesPy (s : String) : List String := splitlinesChars [] s.data

/-- `line.rsplit('/', 1)[-1]` on strings. -/
def lastSlashSegR (line : String) : String := String.mk (rsplit1Last '/' line.data)

/-- `line.split('/')[-1]` on strings. -/
def lastSlashSegF (line : String) : String :=
  String.mk (pyLastD [] (splitCharList '/' line.data))

/-- Embedding of `get_filenames_from_ls` from `bagger/wasabi.py`: keep,
for each line whose `rsplit('/', 1)[-1]` is nonempty, that final path
segment. -/
def bagger_get_filenames_from_ls (ls : String) : List String :=
  ((splitlinesPy ls).filter (fun line => lastSlashSegR line ≠ "")).map lastSlashSegR

/-- Embedding of `get_filenames_from_ls` from
`redata_preservation/wasabi.py`: keep, for each line whose
`split('/')[-1]` is nonempty, that final path segment. -/
def redata_get_filenames_from_ls (ls : String) : List String :=
  ((splitlinesPy ls).filter (fun line => lastSlashSegF line ≠ "")).map lastSlashSegF

theorem lastSlashSeg_eq : lastSlashSegF = lastSlashSegR := by
  funext line
  unfold lastSlashSegF lastSlashSegR
  rw [pyLastD_splitCharList]

/-- Claim C10: the two filename-only listing parsers are extensionally
equal — for every input string, `get_filenames_from_ls` of
`bagger/wasabi.py` (via `rsplit('/', 1)[-1]`) and `get_filenames_from_ls`
of `redata_preservation/wasabi.py` (via `split('/')[-1]`) return the same
list of filenames. -/
theorem listing_parsers_extensionally_equal (ls : String) :
    bagger_get_filenames_from_ls ls = redata_get_filenames_from_ls ls := by
  unfold bagger_get_filenames_from_ls redata_get_filenames_from_ls
  rw [lastSlashSeg_eq]

/-- Python `str.zfill(w)`: pad on the left with zeros to width `w`,
keeping a leading sign in front of the padding. -/
def zfill (w : Nat) (s : String) : String :=
  let cs := s.data
  if w ≤ cs.length then s
  else
    match cs with
    | c :: rest =>
      if c = '-' || c = '+' then String.mk (c :: (List.replicate (w - cs.length) '0' ++ rest))
      else String.mk (List.replicate (w - cs.length) '0' ++ cs)
    | [] => String.mk (List.replicate w '0')

/-- The `version_no` argument of the two lookup functions: Python passes
either an int or a string here. -/
inductive VerArg where
  | int (n : Int) : VerArg
  | str (s : String) : VerArg

/-- Python `int(s)` (raising on non-numeric strings is `none`; the model
accepts an optional sign followed by digits, which covers the version
strings the code meets). -/
def pyIntOfStr (s : String) : Option Int := s.toInt?

/-- Version-tag normalization of `get_preserved_version_hash_and_size`
(`figshare/Utils.py` lines 99-104):
if `'v' in str(version_no)` the value passes through unchanged, else
`v` plus `str(version_no).zfill(2)` when below 10, else `v` plus
`str(version_no)`.  For an int argument `str(version_no)` is a decimal
numeral and never contains `v`, so only the numeric branches apply.
`none` models the `ValueError` of `int()` on a non-numeric string. -/
def registryVersionTag : VerArg → Option String
  | .int n =>
    if n < 10 then some ("v" ++ zfill 2 (toString n)) else some ("v" ++ toString n)
  | .str s =>
    if pyIn "v" s then some s
    else
      match pyIntOfStr s with
      | none => none
      | some n => if n < 10 then some ("v" ++ zfill 2 s) else some ("v" ++ s)

/-- Version-tag normalization of `check_wasabi` (`figshare/Utils.py`
lines 195-200); the source text is identical to the registry variant. -/
def wasabiVersionTag : VerArg → Option String
  | .int n =>
    if n < 10 then some ("v" ++ zfill 2 (toString n)) else some ("v" ++ toString n)
  | .str s =>
    if pyIn "v" s then some s
    else
      match pyIntOfStr s with
      | none => none
      | some n => if n < 10 then some ("v" ++ zfill 2 s) else some ("v" ++ s)

/-- Version-tag derivation of `calculate_payload_size` (`figshare/Utils.py`
lines 309-314): always the zero-padded form, with no passthrough branch —
`version = f"v[str(version_no).zfill(2)]"`, replaced by `f"v[str(version_no)]"`
when `int(version_no) > 9`. -/
def payloadVersionTag (version_no : Int) : String :=
  let version := "v" ++ zfill 2 (toString version_no)
  if version_no > 9 then "v" ++ toString version_no else version

/-- Claim C8: version-tag normalization maps 1 to v01, 9 to v09 and 10 to
v10 in all three places it is performed; the two lookup variants pass an
input already containing the character v (such as the string v3) through
unchanged, and the estimator uses the zero-padded form only (its tag is a
total function of the numeric version, with no passthrough branch). -/
theorem version_tag_formatting :
    registryVersionTag (.int 1) = some "v01" ∧
    registryVersionTag (.int 9) = some "v09" ∧
    registryVersionTag (.int 10) = some "v10" ∧
    registryVersionTag (.str "v3") = some "v3" ∧
    wasabiVersionTag (.int 1) = some "v01" ∧
    wasabiVersionTag (.int 9) = some "v09" ∧
    wasabiVersionTag (.int 10) = some "v10" ∧
    wasabiVersionTag (.str "v3") = some "v3" ∧
    payloadVersionTag 1 = "v01" ∧
    payloadVersionTag 9 = "v09" ∧
    payloadVersionTag 10 = "v10" := by
  decide

/-- Python whitespace test used by `str.split()` with no separator. -/
def pyIsSpace (c : Char) : Bool :=
  c = ' ' || c = '\t' || c = '\n' || c = '\r' || c = '\x0b' || c = '\x0c'

/-- Helper of `splitWsPy`: split on runs of whitespace, discarding empty
fields. -/
def splitWsAux : List Char → List Char → List String
  | acc, [] => if acc.isEmpty then [] else [String.mk acc.reverse]
  | acc, ch :: rest =>
    if pyIsSpace ch then
      if acc.isEmpty then splitWsAux [] rest
      else String.mk acc.reverse :: splitWsAux [] rest
    else splitWsAux (ch :: acc) rest

/-- Python `line.split()` with no argument. -/
def splitWsPy (s : String) : List String := splitWsAux [] s.data

/-- Python `l[-2]`: `none` models the `IndexError` raised when the list
has fewer than two elements. -/
def pyNeg2 (l : List String) : Option String :=
  if 2 ≤ l.length then l[l.length - 2]? else none

/-- Line-by-line body of `get_filenames_and_sizes_from_ls`: the list
comprehension keeps each line whose `rsplit('/', 1)[-1]` is nonempty and
pairs that final path segment with `line.split()[-2]`; an `.error`
result models the `IndexError` raised by `line.split()[-2]` on a kept
line with fewer than two whitespace-delimited tokens. -/
def parseSizedLines : List String → Except Unit (List (String × String))
  | [] => .ok []
  | line :: rest =>
    if lastSlashSegR line ≠ "" then
      match pyNeg2 (splitWsPy line) with
      | none => .error ()
      | some sz => (parseSizedLines rest).map (fun r => (lastSlashSegR line, sz) :: r)
    else parseSizedLines rest

/-- Embedding of `get_filenames_and_sizes_from_ls` (`figshare/Utils.py`
lines 210-223). -/
def get_filenames_and_sizes_from_ls (ls : String) : Except Unit (List (String × String)) :=
  parseSizedLines (splitlinesPy ls)

/-- Claim C4, counterexample: the claim says that for every input string
the parser returns a list without raising; but on the single-line input
`abc` the final slash-delimited segment is the nonempty string `abc`, so
the line is kept, and `line.split()[-2]` raises `IndexError` because the
line has only one whitespace-delimited token.  The parser therefore
raises rather than returning a list. -/
theorem sized_listing_parser_raises_on_short_line :
    get_filenames_and_sizes_from_ls "abc" = .error () ∧
    (Except.error () : Except Unit (List (String × String))) ≠ .ok [] := by
  constructor
  · rfl
  · intro h
    cases h

theorem parseSizedLines_ok (lines : List String)
    (h : ∀ line ∈ lines, lastSlashSegR line ≠ "" → 2 ≤ (splitWsPy line).length) :
    parseSizedLines lines = .ok (lines.filterMap (fun line =>
      if lastSlashSegR line ≠ "" then
        some (lastSlashSegR line, (pyNeg2 (splitWsPy line)).getD "")
      else none)) := by
  induction lines with
  | nil => rfl
  | cons line rest ih =>
    have hrest : ∀ l ∈ rest, lastSlashSegR l ≠ "" → 2 ≤ (splitWsPy l).length :=
      fun l hl => h l (List.mem_cons_of_mem line hl)
    by_cases hf : lastSlashSegR line = ""
    · simp [parseSizedLines, hf, ih hrest]
    · have hlen := h line (List.mem_cons_self line rest) hf
      have hidx : (splitWsPy line).length - 2 < (splitWsPy line).length := by omega
      have hsome : pyNeg2 (splitWsPy line) =
          some ((splitWsPy line).get ⟨(splitWsPy line).length - 2, hidx⟩) := by
        unfold pyNeg2
        rw [if_pos hlen]
        simp [List.getElem?_eq_getElem hidx]
      simp [parseSizedLines, hf, hsome, ih hrest, Except.map]

/-- Claim C4, amended: for every input string the parser never raises on
lines whose final slash-delimited segment is empty (those are skipped),
and every kept line with at least two whitespace-delimited tokens
contributes the pair (final path segment, second-to-last token); but a
kept line with fewer than two whitespace-delimited tokens makes
`line.split()[-2]` raise `IndexError` instead of being skipped, so the
no-exception guarantee holds only under that token-count condition. -/
theorem sized_listing_parser_ok_of_wellformed (ls : String)
    (h : ∀ line ∈ splitlinesPy ls, lastSlashSegR line ≠ "" → 2 ≤ (splitWsPy line).length) :
    get_filenames_and_sizes_from_ls ls = .ok ((splitlinesPy ls).filterMap (fun line =>
      if lastSlashSegR line ≠ "" then
        some (lastSlashSegR line, (pyNeg2 (splitWsPy line)).getD "")
      else none)) :=
  parseSizedLines_ok (splitlinesPy ls) h

/-- Claim C4, witness: the spec example line parses to the pair
(file_abc123.tar, 100). -/
theorem sized_listing_parser_witness :
    get_filenames_and_sizes_from_ls "2024-01-01 100 s3://bucket/path/file_abc123.tar" =
      .ok [("file_abc123.tar", "100")] := by
  rw [sized_listing_parser_ok_of_wellformed _ (by decide)]
  rfl

/-- A directory entry as produced by `os.scandir`. -/
structure DirEntry where
  name : String
  isDir : Bool

/-- The filesystem as the size-estimation code observes it:
`readable p` is `os.access(p, os.R_OK)`, `scandir p` is the listing of
`p` (`none` modelling the `FileNotFoundError`\`NotADirectoryError` of
`os.scandir` on an unusable path) and `getsize p` is `os.path.getsize`. -/
structure Fs where
  readable : String → Bool
  scandir : String → Option (List DirEntry)
  getsize : String → Nat

/-- `os.scandir`: scanning the empty path always raises
`FileNotFoundError` (POSIX `ENOENT` on the empty string), everything
else is answered by the filesystem. -/
def osScandir (fs : Fs) (p : String) : Except Unit (List DirEntry) :=
  if p = "" then .error ()
  else
    match fs.scandir p with
    | some entries => .ok entries
    | none => .error ()

/-- `os.path.join` for the shapes the code builds. -/
def osPathJoin (a b : String) : String :=
  if b.startsWith "/" then b
  else if a = "" then b
  else if a.endsWith "/" then a ++ b
  else a ++ "/" ++ b

/-- Embedding of `calculate_ual_rdm_size` (`figshare/Utils.py` lines
226-265).  Each `for`\`break` loop takes the first directory entry whose
name contains the wanted substring, leaving the corresponding path
variable at its initial `""` when nothing matches; an `.error` result
models an uncaught exception escaping the function. -/
def calculate_ual_rdm_size (fs : Fs) (curation_storage : String)
    (article_id : Nat) (version : String) : Except Unit Nat :=
  if fs.readable curation_storage then do
    let items ← osScandir fs curation_storage
    let article_dir :=
      match items.find? (fun it => it.isDir && pyIn (toString article_id) it.name) with
      | some it => osPathJoin curation_storage it.name
      | none => ""
    let vitems ← osScandir fs article_dir
    let article_version_dir :=
      match vitems.find? (fun it => it.isDir && pyIn version it.name) with
      | some it => osPathJoin article_dir it.name
      | none => ""
    let uitems ← osScandir fs article_version_dir
    let article_version_ual_rdm :=
      match uitems.find? (fun it => it.isDir && pyIn "UAL_RDM" it.name) with
      | some it => osPathJoin article_version_dir it.name
      | none => ""
    let fitems ← osScandir fs article_version_ual_rdm
    return fitems.foldl
      (fun acc it => acc + fs.getsize (osPathJoin article_version_ual_rdm it.name)) 0
  else
    .ok 0

/-- A filesystem whose curation root is readable but empty: the
article-id directory level is absent. -/
def fsMissingLevels : Fs where
  readable := fun _ => true
  scandir := fun p => if p = "/curation" then some [] else none
  getsize := fun _ => 0

/-- Claim C2, counterexample: under a readable storage root with the
article-id directory level absent, `article_dir` stays `""` and
`os.scandir("")` raises `FileNotFoundError`; the function raises instead
of returning 0, refuting the claim that a missing directory level makes
it return 0 without raising. -/
theorem ual_rdm_size_raises_on_missing_level :
    calculate_ual_rdm_size fsMissingLevels "/curation" 7 "v01" = .error () ∧
    (Except.error () : Except Unit Nat) ≠ .ok 0 := by
  constructor
  · rfl
  · intro h
    cases h

/-- Claim C2, amended: when the storage root is unreadable
`calculate_ual_rdm_size` returns 0 without raising; but when the root is
readable and an expected directory level (article-id directory, version
directory, or UAL_RDM directory) is absent, the function raises
(`os.scandir` on the empty path) instead of degrading that component
to 0. -/
theorem ual_rdm_size_zero_of_unreadable_root (fs : Fs) (curation_storage : String)
    (article_id : Nat) (version : String) (h : fs.readable curation_storage = false) :
    calculate_ual_rdm_size fs curation_storage article_id version = .ok 0 := by
  unfold calculate_ual_rdm_size
  rw [h]
  rfl

/-- A filesystem whose curation root is not readable. -/
def fsUnreadable : Fs where
  readable := fun _ => false
  scandir := fun _ => none
  getsize := fun _ => 0

/-- Claim C2, witness for the amended theorem at a concrete unreadable
root. -/
theorem ual_rdm_size_zero_witness :
    calculate_ual_rdm_size fsUnreadable "/curation" 7 "v01" = .ok 0 :=
  ual_rdm_size_zero_of_unreadable_root fsUnreadable "/curation" 7 "v01" rfl

/-- One preserved-package record of the registry response
(`results` entry with `bag_name` and `payload_size`). -/
structure PkgRecord where
  bag_name : String
  payload_size : Int
deriving DecidableEq

/-- One HTTP exchange with the registry: a response with a status code
and the parsed `results` field (`none` is JSON null), or a transport
error (`requests.exceptions.RequestException`). -/
inductive ApiResponse where
  | ok (status : Nat) (results : Option (List PkgRecord)) : ApiResponse
  | exc : ApiResponse

/-- Observable outcome of the lookup: a returned pair, a raised
exception, or exhaustion of the fuel bound (the code did not terminate
within `fuel` loop iterations). -/
inductive LookupOutcome where
  | ret (hash : String) (size : Int) : LookupOutcome
  | raised : LookupOutcome
  | fuelOut : LookupOutcome
deriving DecidableEq

/-- Exit of the inner `while not page_empty` pagination loop:
a matching record returned, a null results page (loop ends, a 200 was
seen), a transport exception (carrying whether a 200 had been seen, i.e.
the `success` flag), or fuel exhaustion. -/
inductive InnerRes where
  | found (hash : String) (size : Int) : InnerRes
  | pageEmpty (next : Nat) : InnerRes
  | exc (next : Nat) (success : Bool) : InnerRes
  | fuelOut : InnerRes

/-- `bag_name.split('_')[-1]`. -/
def lastUnderscoreTok (s : String) : String :=
  String.mk (pyLastD [] (splitCharList '_' s.data))

/-- The inner pagination loop of `get_preserved_version_hash_and_size`
(`figshare/Utils.py` lines 110-127), one fuel per iteration.  The
requests are numbered; `oracle i` is the response to the i-th request.
On status 200 with a results list, a record whose `bag_name` contains
both the stringified article id and the version tag returns immediately;
otherwise `page` is incremented and the loop continues.  On a non-200
response nothing in the loop state changes except the request counter:
the same page is requested again.  A transport exception escapes to the
retry handler. -/
def innerPages (oracle : Nat → ApiResponse) (aid vtag : String) :
    Nat → Nat → Nat → Bool → InnerRes
  | 0, _, _, _ => .fuelOut
  | fuel + 1, page, reqIdx, success =>
    match oracle reqIdx with
    | .exc => .exc (reqIdx + 1) success
    | .ok status results =>
      if status = 200 then
        match results with
        | none => .pageEmpty (reqIdx + 1)
        | some pkgs =>
          match pkgs.find? (fun p => pyIn aid p.bag_name && pyIn vtag p.bag_name) with
          | some p => .found (lastUnderscoreTok p.bag_name) p.payload_size
          | none => innerPages oracle aid vtag fuel (page + 1) (reqIdx + 1) true
      else innerPages oracle aid vtag fuel page (reqIdx + 1) success

/-- The outer retry loop of `get_preserved_version_hash_and_size`
(`figshare/Utils.py` lines 106-135): while `tries <= retries and not
success`, run the pagination loop; a transport exception increments
`tries`, re-raises when `tries > retries`, and otherwise sleeps and
retries.  A normal inner exit leaves the loop (a null page set
`success`) and the default `('', 0)` is returned. -/
def outerRetry (oracle : Nat → ApiResponse) (aid vtag : String) (retries : Nat) :
    Nat → Nat → Nat → Bool → LookupOutcome
  | 0, _, _, _ => .fuelOut
  | fuel + 1, tries, reqIdx, success =>
    if tries ≤ retries && !success then
      match innerPages oracle aid vtag (fuel + 1) 1 reqIdx success with
      | .found h s => .ret h s
      | .pageEmpty _ => .ret "" 0
      | .fuelOut => .fuelOut
      | .exc next succ =>
        if tries + 1 > retries then .raised
        else outerRetry oracle aid vtag retries fuel (tries + 1) next succ
    else .ret "" 0

/-- Embedding of `get_preserved_version_hash_and_size`
(`figshare/Utils.py` lines 65-135): version-tag normalization followed by
the retried, paginated scan.  `tries` starts at 1, the request counter at
0 and `success` at `False`. -/
def get_preserved_version_hash_and_size (oracle : Nat → ApiResponse) (retries : Nat)
    (article_id : Nat) (version_no : VerArg) (fuel : Nat) : LookupOutcome :=
  match registryVersionTag version_no with
  | none => .raised
  | some vtag => outerRetry oracle (toString article_id) vtag retries fuel 1 0 false

/-- A registry that answers every request with a non-200 status. -/
def oracle500 : Nat → ApiResponse := fun _ => .ok 500 none

theorem innerPages_oracle500_fuelOut (aid vtag : String) :
    ∀ fuel page reqIdx success,
      innerPages oracle500 aid vtag fuel page reqIdx success = .fuelOut := by
  intro fuel
  induction fuel with
  | zero => intro page reqIdx success; rfl
  | succ n ih =>
    intro page reqIdx success
    simp only [innerPages, oracle500]
    norm_num
    exact ih page (reqIdx + 1) success

/-- Claim C3: on a registry whose every response has a non-200 status the
lookup never terminates — for every fuel bound the interpreter runs out
of fuel.  A non-200 response raises no `requests.exceptions.
RequestException`, so `except` never runs: `tries` is never incremented,
no retry is counted, nothing is ever raised, and the inner loop
re-requests the same page forever.  This refutes the claim that a
non-200 response is counted against the retry maximum with the failure
raised after at most `retries` attempts; the spec describes the evident
intent and the code is the slip. -/
theorem lookup_diverges_on_non200 (retries article_id : Nat) (n : Int) (fuel : Nat)
    (h : 1 ≤ retries) :
    get_preserved_version_hash_and_size oracle500 retries article_id (.int n) fuel =
      .fuelOut := by
  unfold get_preserved_version_hash_and_size
  cases htag : registryVersionTag (.int n) with
  | none => simp [registryVersionTag] at htag; split at htag <;> cases htag
  | some vtag =>
    cases fuel with
    | zero => rfl
    | succ m =>
      simp only [outerRetry]
      rw [innerPages_oracle500_fuelOut]
      simp [h]

/-- Claim C3, witness: concrete divergence at retries 2, article 42,
version 3, fuel 7. -/
theorem lookup_diverges_on_non200_witness :
    get_preserved_version_hash_and_size oracle500 2 42 (.int 3) 7 = .fuelOut :=
  lookup_diverges_on_non200 2 42 3 7 (by decide)

/-- A registry whose first response is a 200 with a null results page;
any further request would be a transport error, so a `.ret` outcome also
certifies that exactly one request was made. -/
def oracleEmptyFirstPage : Nat → ApiResponse :=
  fun i => if i = 0 then .ok 200 none else .exc

/-- Claim C5: a registry that returns an empty results page (JSON null
`results`) on page 1 makes the lookup terminate with the default
`("", 0)` without invoking the retry policy: the result holds for every
retry budget of at least 1 and every sufficient fuel bound, and since
every request after the first would be a transport error, the `.ret`
outcome certifies the scan stopped after the single request — the empty
page was not treated as a transport failure. -/
theorem lookup_default_on_empty_page (retries article_id : Nat) (n : Int) (fuel : Nat)
    (hr : 1 ≤ retries) (hf : 2 ≤ fuel) :
    get_preserved_version_hash_and_size oracleEmptyFirstPage retries article_id
      (.int n) fuel = .ret "" 0 := by
  unfold get_preserved_version_hash_and_size
  cases htag : registryVersionTag (.int n) with
  | none => simp [registryVersionTag] at htag; split at htag <;> cases htag
  | some vtag =>
    obtain ⟨m, rfl⟩ : ∃ m, fuel = m + 2 := ⟨fuel - 2, by omega⟩
    simp only [outerRetry, innerPages, oracleEmptyFirstPage]
    simp [hr]

/-- Claim C5, witness: concrete run at retries 2, article 42, version 3,
fuel 9. -/
theorem lookup_default_on_empty_page_witness :
    get_preserved_version_hash_and_size oracleEmptyFirstPage 2 42 (.int 3) 9 =
      .ret "" 0 :=
  lookup_default_on_empty_page 2 42 3 9 (by decide) (by decide)

def intCmpO (x y : Int) : Ordering :=
  if x < y then .lt else if y < x then .gt else .eq

def charCmpO (a b : Char) : Ordering :=
  if a.toNat < b.toNat then .lt else if b.toNat < a.toNat then .gt else .eq

def listCmpO (cmp : α → α → Ordering) : List α → List α → Ordering
  | [], [] => .eq
  | [], _ :: _ => .lt
  | _ :: _, [] => .gt
  | a :: as, b :: bs =>
    match cmp a b with
    | .lt => .lt
    | .eq => listCmpO cmp as bs
    | .gt => .gt

def cmpLeb (cmp : α → α → Ordering) (a b : α) : Bool := decide (cmp a b ≠ .gt)

structure CmpLaws (cmp : α → α → Ordering) : Prop where
  swap_eq : ∀ a b, cmp b a = (cmp a b).swap
  eq_imp : ∀ a b, cmp a b = .eq → a = b
  lt_trans : ∀ a b c, cmp a b = .lt → cmp b c = .lt → cmp a c = .lt

theorem intCmpO_laws : CmpLaws intCmpO := by
  constructor
  · intro a b
    unfold intCmpO
    split_ifs <;> first | rfl | (exfalso; omega)
  · intro a b h
    unfold intCmpO at h
    split_ifs at h <;> omega
  · intro a b c hab hbc
    unfold intCmpO at *
    split_ifs at hab hbc <;> first | (exfalso; omega) | (split_ifs <;> first | rfl | (exfalso; omega))

theorem charCmpO_laws : CmpLaws charCmpO := by
  constructor
  · intro a b
    unfold charCmpO
    split_ifs <;> first | rfl | (exfalso; omega)
  · intro a b h
    unfold charCmpO at h
    split_ifs at h <;>
      first
      | exact absurd h (by decide)
      | exact Char.ext (UInt32.ext (show Char.toNat a = Char.toNat b by omega))
  · intro a b c hab hbc
    unfold charCmpO at *
    split_ifs at hab hbc <;> first | (exfalso; omega) | (split_ifs <;> first | rfl | (exfalso; omega))

theorem listCmpO_laws (cmp : α → α → Ordering) (h : CmpLaws cmp) :
    CmpLaws (listCmpO cmp) := by
  constructor
  · intro a
    induction a with
    | nil => intro b; cases b <;> rfl
    | cons x xs ih =>
      intro b
      cases b with
      | nil => rfl
      | cons y ys =>
        have hswap := h.swap_eq x y
        cases hc : cmp x y <;> rw [hc] at hswap <;>
          simp only [listCmpO, hc, hswap, Ordering.swap]
        exact ih ys
  · intro a
    induction a with
    | nil =>
      intro b hb
      cases b with
      | nil => rfl
      | cons y ys => cases hb
    | cons x xs ih =>
      intro b hb
      cases b with
      | nil => cases hb
      | cons y ys =>
        simp only [listCmpO] at hb
        cases hc : cmp x y <;> rw [hc] at hb
        · cases hb
        · rw [h.eq_imp x y hc, ih ys hb]
        · cases hb
  · intro a
    induction a with
    | nil =>
      intro b c hab hbc
      cases b with
      | nil => cases hab
      | cons y ys =>
        cases c with
        | nil => cases hbc
        | cons z zs => rfl
    | cons x xs ih =>
      intro b c hab hbc
      cases b with
      | nil => cases hab
      | cons y ys =>
        cases c with
        | nil => cases hbc
        | cons z zs =>
          simp only [listCmpO] at hab hbc ⊢
          cases hxy : cmp x y <;> rw [hxy] at hab
          · cases hyz : cmp y z <;> rw [hyz] at hbc
            · rw [h.lt_trans x y z hxy hyz]
            · obtain rfl := h.eq_imp y z hyz
              rw [hxy]
            · exact absurd (show Ordering.gt = Ordering.lt from hbc) (by decide)
          · obtain rfl := h.eq_imp x y hxy
            cases hyz : cmp x z <;> rw [hyz] at hbc
            · exact ih ys zs hab hbc
            · exact absurd (show Ordering.gt = Ordering.lt from hbc) (by decide)
          · exact absurd (show Ordering.gt = Ordering.lt from hab) (by decide)

theorem cmpLeb_ne_gt (cmp : α → α → Ordering) (a b : α) :
    cmpLeb cmp a b = true ↔ cmp a b ≠ .gt := by simp [cmpLeb]

theorem cmpLeb_refl (cmp : α → α → Ordering) (h : CmpLaws cmp) (a : α) :
    cmpLeb cmp a a = true := by
  rw [cmpLeb_ne_gt]
  intro hgt
  have hs := h.swap_eq a a
  rw [hgt] at hs
  cases hs

theorem cmpLeb_total (cmp : α → α → Ordering) (h : CmpLaws cmp) (a b : α) :
    cmpLeb cmp a b = true ∨ cmpLeb cmp b a = true := by
  rw [cmpLeb_ne_gt, cmpLeb_ne_gt]
  cases hc : cmp a b with
  | lt => left; simp
  | eq => left; simp
  | gt =>
    right
    have hs := h.swap_eq a b
    rw [hc] at hs
    rw [hs]
    simp [Ordering.swap]

theorem cmpLeb_trans (cmp : α → α → Ordering) (h : CmpLaws cmp) (a b c : α)
    (hab : cmpLeb cmp a b = true) (hbc : cmpLeb cmp b c = true) :
    cmpLeb cmp a c = true := by
  rw [cmpLeb_ne_gt] at *
  cases hxy : cmp a b with
  | gt => exact absurd hxy hab
  | eq => rw [← h.eq_imp a b hxy] at hbc; exact hbc
  | lt =>
    cases hyz : cmp b c with
    | gt => exact absurd hyz hbc
    | eq => rw [← h.eq_imp b c hyz]; rw [hxy]; simp
    | lt => rw [h.lt_trans a b c hxy hyz]; simp

theorem cmpLeb_antisymm (cmp : α → α → Ordering) (h : CmpLaws cmp) (a b : α)
    (hab : cmpLeb cmp a b = true) (hba : cmpLeb cmp b a = true) : a = b := by
  rw [cmpLeb_ne_gt] at hab hba
  cases hc : cmp a b with
  | eq => exact h.eq_imp a b hc
  | gt => exact absurd hc hab
  | lt =>
    exfalso
    have hs := h.swap_eq a b
    rw [hc] at hs
    exact hba hs

/-- Python string comparison: lexicographic by code point. -/
def strCmpO (s t : String) : Ordering := listCmpO charCmpO s.data t.data

/-- Python tuple-of-strings comparison. -/
def tupCmpO (a b : List String) : Ordering := listCmpO strCmpO a b

theorem strCmpO_laws : CmpLaws strCmpO := by
  have hl := listCmpO_laws charCmpO charCmpO_laws
  constructor
  · intro a b
    exact hl.swap_eq a.data b.data
  · intro a b h
    exact String.ext (hl.eq_imp a.data b.data h)
  · intro a b c
    exact hl.lt_trans a.data b.data c.data

theorem tupCmpO_laws : CmpLaws tupCmpO :=
  listCmpO_laws strCmpO strCmpO_laws

/-- One step of Python stable insertion: place `x` before the first
element it is not greater than. -/
def insert1By (leb : α → α → Bool) (x : α) : List α → List α
  | [] => [x]
  | y :: ys => if leb x y then x :: y :: ys else y :: insert1By leb x ys

/-- Stable insertion sort with a total Bool comparison — the model of
Python `sorted(...)` for the key-based sorts in `sorter_api_result`
(there the comparisons are total, so the sort never raises).  Inserting
an element in front of any equal element of the already-sorted tail
keeps the original relative order of equal elements, as Python
guarantees. -/
def insortBy (leb : α → α → Bool) : List α → List α
  | [] => []
  | x :: xs => insert1By leb x (insortBy leb xs)

theorem insert1By_perm (leb : α → α → Bool) (x : α) (m : List α) :
    List.Perm (insert1By leb x m) (x :: m) := by
  induction m with
  | nil => exact List.Perm.refl _
  | cons y ys ihy =>
    by_cases hc : leb x y
    · simp [insert1By, hc]
    · simp only [insert1By, hc, if_neg, Bool.false_eq_true, not_false_eq_true]
      exact List.Perm.trans (List.Perm.cons y ihy) (List.Perm.swap x y ys)

theorem insortBy_perm (leb : α → α → Bool) (l : List α) :
    List.Perm (insortBy leb l) l := by
  induction l with
  | nil => exact List.Perm.refl _
  | cons x xs ih =>
    exact List.Perm.trans (insert1By_perm leb x (insortBy leb xs)) (List.Perm.cons x ih)

theorem sizeOf_insortBy [SizeOf α] (leb : α → α → Bool) (l : List α) :
    sizeOf (insortBy leb l) = sizeOf l :=
  List.Perm.sizeOf_eq_sizeOf (insortBy_perm leb l)

theorem mem_insert1By (leb : α → α → Bool) (x a : α) (m : List α) :
    a ∈ insert1By leb x m ↔ a = x ∨ a ∈ m := by
  rw [(insert1By_perm leb x m).mem_iff]
  simp

theorem insert1By_pairwise (leb : α → α → Bool)
    (htot : ∀ a b, leb a b = true ∨ leb b a = true)
    (htr : ∀ a b c, leb a b = true → leb b c = true → leb a c = true)
    (x : α) (m : List α) (hm : m.Pairwise (fun a b => leb a b = true)) :
    (insert1By leb x m).Pairwise (fun a b => leb a b = true) := by
  induction m with
  | nil => simp [insert1By]
  | cons y ys ih =>
    rcases List.pairwise_cons.mp hm with ⟨hy, hys⟩
    by_cases hc : leb x y
    · rw [insert1By, if_pos hc]
      refine List.pairwise_cons.mpr ⟨?_, hm⟩
      intro b hb
      rcases List.mem_cons.mp hb with rfl | hb
      · exact hc
      · exact htr x y b hc (hy b hb)
    · rw [insert1By, if_neg hc]
      refine List.pairwise_cons.mpr ⟨?_, ih hys⟩
      intro b hb
      rcases (mem_insert1By leb x b ys).mp hb with hbx | hb
      · rw [hbx]
        rcases htot x y with h | h
        · exact absurd h hc
        · exact h
      · exact hy b hb

theorem insortBy_pairwise (leb : α → α → Bool)
    (htot : ∀ a b, leb a b = true ∨ leb b a = true)
    (htr : ∀ a b c, leb a b = true → leb b c = true → leb a c = true)
    (l : List α) : (insortBy leb l).Pairwise (fun a b => leb a b = true) := by
  induction l with
  | nil => simp [insortBy]
  | cons x xs ih => exact insert1By_pairwise leb htot htr x _ ih

theorem insortBy_of_pairwise (leb : α → α → Bool) (l : List α)
    (hl : l.Pairwise (fun a b => leb a b = true)) : insortBy leb l = l := by
  induction l with
  | nil => rfl
  | cons x xs ih =>
    rcases List.pairwise_cons.mp hl with ⟨hx, hxs⟩
    rw [insortBy, ih hxs]
    cases xs with
    | nil => rfl
    | cons y ys => rw [insert1By, if_pos (hx y (List.mem_cons_self y ys))]

/-- Sorting with the ≤ of a lawful comparison is a function of the
multiset: two permuted lists sort to the same list (for comparisons that
reflect equality, such as string comparison). -/
theorem insortBy_eq_of_perm (cmp : α → α → Ordering) (h : CmpLaws cmp)
    (l₁ l₂ : List α) (hp : List.Perm l₁ l₂) :
    insortBy (cmpLeb cmp) l₁ = insortBy (cmpLeb cmp) l₂ := by
  refine @List.Perm.eq_of_sorted _ (fun a b => cmpLeb cmp a b = true) _ _ ?_ ?_ ?_ ?_
  · intro a b _ _ hab hba
    exact cmpLeb_antisymm cmp h a b hab hba
  · exact insortBy_pairwise _ (cmpLeb_total cmp h) (cmpLeb_trans cmp h) l₁
  · exact insortBy_pairwise _ (cmpLeb_total cmp h) (cmpLeb_trans cmp h) l₂
  · exact ((insortBy_perm _ l₁).trans hp).trans (insortBy_perm _ l₂).symm

/-- Python `repr` of a string: quote choice (double quotes when the
string contains a single quote but no double quote) and escaping of the
backslash and the chosen quote; escaping of control characters is not
modelled, which only affects derived sort keys for strings holding such
characters. -/
def pyStrRepr (s : String) : String :=
  let q : Char := if s.data.contains '\'' && !(s.data.contains '"') then '"' else '\''
  let esc := s.data.flatMap (fun c => if c = '\\' || c = q then ['\\', c] else [c])
  String.mk (q :: (esc ++ [q]))

mutual
/-- Python `repr` on JSON-like values: `None`\`True`\`False`, decimal
ints, quoted strings, bracketed lists and braced dicts with
comma-space separators. -/
def pyRepr : Json → String
  | .null => "None"
  | .bool true => "True"
  | .bool false => "False"
  | .num n => toString n
  | .str s => pyStrRepr s
  | .arr l => "[" ++ String.intercalate ", " (pyReprList l) ++ "]"
  | .obj kvs => "\x7b" ++ String.intercalate ", " (pyReprFields kvs) ++ "\x7d"
def pyReprList : List Json → List String
  | [] => []
  | x :: xs => pyRepr x :: pyReprList xs
def pyReprFields : List (String × Json) → List String
  | [] => []
  | (k, v) :: ps => (pyStrRepr k ++ ": " ++ pyRepr v) :: pyReprFields ps
end

/-- Python `str(v)`: the string itself for strings, `repr` otherwise. -/
def pyStr (v : Json) : String :=
  match v with
  | .str s => s
  | _ => pyRepr v

/-- `item.keys()` of a mapping (empty for non-mappings). -/
def jsonKeys : Json → List String
  | .obj kvs => kvs.map Prod.fst
  | _ => []

/-- Python `d.get(k, default)` (first binding wins; Python dicts have
unique keys). -/
def pyDictGet (d : Json) (k : String) (dflt : Json) : Json :=
  match d with
  | .obj kvs =>
    match kvs.find? (fun p => p.1 == k) with
    | some p => p.2
    | none => dflt
  | _ => dflt

/-- `sorted(set(key for item in json_dict_ for key in item.keys()))`:
the ascending-sorted union of the keys of all elements. -/
def keysUnion (l : List Json) : List String :=
  insortBy (cmpLeb strCmpO) ((l.flatMap jsonKeys).dedup)

/-- The sort key of the uniform-dict-sequence branch:
`tuple(str(d.get(k, '')) for k in unique_dicts_keys)`. -/
def keyTupleOf (ks : List String) (d : Json) : List String :=
  ks.map (fun k => pyStr (pyDictGet d k (Json.str "")))

/-- Comparison of two mappings by their key tuples (Python tuple
comparison of the stringified values). -/
def dictsLeb (ks : List String) (a b : Json) : Bool :=
  cmpLeb tupCmpO (keyTupleOf ks a) (keyTupleOf ks b)

/-- Key-order comparison of dict entries, used for
`sorted(json_dict_.keys())`: since Python dict keys are unique,
iterating the sorted keys and indexing the dict is the same as stably
sorting the (key, value) pairs by key. -/
def pairKeyLeb (a b : String × Json) : Bool := cmpLeb strCmpO a.1 b.1

/-- Python `True`\`False` as the ints 1\0 (bools compare numerically). -/
def pyBoolInt (b : Bool) : Int := if b then 1 else 0

mutual
/-- Python three-way comparison of JSON-like values: numbers and bools
compare numerically, strings by code point, lists lexicographically;
every other pair (including None with anything, and dict operands) is
unorderable — `none` models the `TypeError` of `<`.  (CPython list
comparison first probes elements with `==`, so lists holding equal
unorderable elements can compare without raising; that corner is
modelled as an error here and only widens the set of inputs on which
the modelled `sorted` raises.) -/
def pyCmp : Json → Json → Option Ordering
  | .num x, .num y => some (intCmpO x y)
  | .num x, .bool b => some (intCmpO x (pyBoolInt b))
  | .bool a, .num y => some (intCmpO (pyBoolInt a) y)
  | .bool a, .bool b => some (intCmpO (pyBoolInt a) (pyBoolInt b))
  | .str s, .str t => some (strCmpO s t)
  | .arr xs, .arr ys => pyCmpList xs ys
  | _, _ => none
def pyCmpList : List Json → List Json → Option Ordering
  | [], [] => some .eq
  | [], _ :: _ => some .lt
  | _ :: _, [] => some .gt
  | x :: xs, y :: ys =>
    match pyCmp x y with
    | none => none
    | some .lt => some .lt
    | some .eq => pyCmpList xs ys
    | some .gt => some .gt
end

theorem pyCmp_swap_sized : ∀ n : Nat,
    (∀ a b : Json, sizeOf a ≤ n → pyCmp b a = (pyCmp a b).map Ordering.swap) ∧
    (∀ xs ys : List Json, sizeOf xs ≤ n →
      pyCmpList ys xs = (pyCmpList xs ys).map Ordering.swap) := by
  intro n
  induction n using Nat.strong_induction_on with
  | _ n ih =>
    constructor
    · intro a b ha
      cases a with
      | arr xs =>
        cases b with
        | arr ys =>
          have hxs : sizeOf xs < n := by
            have : sizeOf (Json.arr xs) = 1 + sizeOf xs := by simp
            omega
          simp only [pyCmp]
          exact (ih (sizeOf xs) hxs).2 xs ys (le_refl _)
        | null => rfl
        | bool b => rfl
        | num m => rfl
        | str t => rfl
        | obj q => rfl
      | num x =>
        cases b <;> simp only [pyCmp, Option.map_none', Option.map_some'] <;>
          first
          | rfl
          | (rw [intCmpO_laws.swap_eq])
      | bool a =>
        cases b <;> simp only [pyCmp, Option.map_none', Option.map_some'] <;>
          first
          | rfl
          | (rw [intCmpO_laws.swap_eq])
      | str s =>
        cases b <;> simp only [pyCmp, Option.map_none', Option.map_some'] <;>
          first
          | rfl
          | (rw [strCmpO_laws.swap_eq])
      | null =>
        cases b <;> rfl
      | obj p =>
        cases b <;> rfl
    · intro xs ys hxs
      cases xs with
      | nil => cases ys <;> rfl
      | cons x xt =>
        cases ys with
        | nil => rfl
        | cons y yt =>
          have hx : sizeOf x < n := by
            have : sizeOf (x :: xt) = 1 + sizeOf x + sizeOf xt := by simp
            omega
          have hxt : sizeOf xt < n := by
            have : sizeOf (x :: xt) = 1 + sizeOf x + sizeOf xt := by simp
            omega
          have hswap := (ih (sizeOf x) hx).1 x y (le_refl _)
          simp only [pyCmpList, hswap]
          cases hc : pyCmp x y with
          | none => rfl
          | some o =>
            cases o with
            | lt => rfl
            | gt => rfl
            | eq =>
              simp only [Option.map_some', Ordering.swap]
              exact (ih (sizeOf xt) hxt).2 xt yt (le_refl _)

theorem pyCmp_swap (a b : Json) : pyCmp b a = (pyCmp a b).map Ordering.swap :=
  (pyCmp_swap_sized (sizeOf a)).1 a b (le_refl _)

/-- One step of the stable comparison sort modelling Python `sorted` on
arbitrary elements: place `x` before the first element it is not
greater than; an unorderable pair raises (`none`). -/
def insert1 (x : Json) : List Json → Option (List Json)
  | [] => some [x]
  | y :: ys =>
    match pyCmp x y with
    | none => none
    | some o => if o = .gt then (insert1 x ys).map (fun r => y :: r) else some (x :: y :: ys)

/-- Python `sorted(...)` on already-materialized elements: a stable
comparison sort that raises (`none`) when it meets an unorderable pair.
CPython timsort performs a different comparison sequence, so the exact
set of raising inputs differs in corners, but on lists whose elements
are pairwise orderable the result is the same stable ascending order. -/
def insort : List Json → Option (List Json)
  | [] => some []
  | x :: xs =>
    match insort xs with
    | none => none
    | some ys => insert1 x ys

/-- Orderable-and-not-greater: the adjacent invariant of a sorted list. -/
def cmpOk (a b : Json) : Prop := ∃ o, pyCmp a b = some o ∧ o ≠ Ordering.gt

theorem insert1_perm (x : Json) :
    ∀ (m r : List Json), insert1 x m = some r → List.Perm r (x :: m) := by
  intro m
  induction m with
  | nil =>
    intro r h
    rw [insert1] at h
    cases h
    exact List.Perm.refl _
  | cons y ys ih =>
    intro r h
    rw [insert1] at h
    cases hc : pyCmp x y <;> rw [hc] at h
    · cases h
    · rename_i o
      dsimp only at h
      by_cases ho : o = Ordering.gt
      · rw [if_pos ho] at h
        obtain ⟨t, ht, rfl⟩ := Option.map_eq_some'.mp h
        exact List.Perm.trans (List.Perm.cons y (ih t ht)) (List.Perm.swap x y ys)
      · rw [if_neg ho] at h
        cases h
        exact List.Perm.refl _

theorem insort_perm : ∀ (l w : List Json), insort l = some w → List.Perm w l := by
  intro l
  induction l with
  | nil =>
    intro w h
    cases h
    exact List.Perm.refl _
  | cons x xs ih =>
    intro w h
    rw [insort] at h
    cases hs : insort xs <;> rw [hs] at h
    · cases h
    · rename_i ys
      exact List.Perm.trans (insert1_perm x ys w h) (List.Perm.cons x (ih ys hs))

theorem insert1_shape (x : Json) (m t : List Json) (h : insert1 x m = some t) :
    (∃ t', t = x :: t') ∨ (∃ y m' t', m = y :: m' ∧ t = y :: t') := by
  cases m with
  | nil =>
    rw [insert1] at h
    cases h
    exact Or.inl ⟨[], rfl⟩
  | cons y ys =>
    rw [insert1] at h
    cases hc : pyCmp x y <;> rw [hc] at h
    · cases h
    · rename_i o
      dsimp only at h
      by_cases ho : o = Ordering.gt
      · rw [if_pos ho] at h
        obtain ⟨t', ht', rfl⟩ := Option.map_eq_some'.mp h
        exact Or.inr ⟨y, ys, t', rfl, rfl⟩
      · rw [if_neg ho] at h
        cases h
        exact Or.inl ⟨y :: ys, rfl⟩

theorem insert1_chain (x : Json) :
    ∀ (m r : List Json), m.Chain' cmpOk → insert1 x m = some r → r.Chain' cmpOk := by
  intro m
  induction m with
  | nil =>
    intro r _ h
    rw [insert1] at h
    cases h
    exact List.chain'_singleton x
  | cons y ys ih =>
    intro r hm h
    rw [insert1] at h
    cases hc : pyCmp x y <;> rw [hc] at h
    · cases h
    · rename_i o
      dsimp only at h
      by_cases ho : o = Ordering.gt
      · rw [if_pos ho] at h
        obtain ⟨t, ht, rfl⟩ := Option.map_eq_some'.mp h
        have hys : ys.Chain' cmpOk := List.Chain'.tail hm
        have hct : t.Chain' cmpOk := ih t hys ht
        have hyx : cmpOk y x := by
          refine ⟨Ordering.lt, ?_, by decide⟩
          rw [pyCmp_swap x y, hc, ho]
          rfl
        rcases insert1_shape x ys t ht with ⟨t', rfl⟩ | ⟨y', ys', t', hys', rfl⟩
        · exact List.chain'_cons.mpr ⟨hyx, hct⟩
        · have hyy' : cmpOk y y' := by
            rw [hys'] at hm
            exact (List.chain'_cons.mp hm).1
          exact List.chain'_cons.mpr ⟨hyy', hct⟩
      · rw [if_neg ho] at h
        cases h
        exact List.chain'_cons.mpr ⟨⟨o, hc, ho⟩, hm⟩

theorem insort_chain : ∀ (l w : List Json), insort l = some w → w.Chain' cmpOk := by
  intro l
  induction l with
  | nil =>
    intro w h
    cases h
    exact List.chain'_nil
  | cons x xs ih =>
    intro w h
    rw [insort] at h
    cases hs : insort xs <;> rw [hs] at h
    · cases h
    · rename_i ys
      exact insert1_chain x ys w (ih ys hs) h

theorem insort_fix : ∀ (w : List Json), w.Chain' cmpOk → insort w = some w := by
  intro w
  induction w with
  | nil => intro _; rfl
  | cons x xs ih =>
    intro hw
    rw [insort, ih (List.Chain'.tail hw)]
    cases xs with
    | nil => rfl
    | cons y ys =>
      obtain ⟨o, hc, ho⟩ := (List.chain'_cons.mp hw).1
      simp [insert1, hc, ho]

mutual
/-- Embedding of `sorter_api_result` (`figshare/Utils.py` lines 26-62).
Scalars pass through; a nonempty list whose elements are all dicts is
sorted by the tuple of stringified values across the sorted union of
keys, without normalizing the elements; any other list has its elements
normalized recursively and is then sorted by Python comparison (which
can raise, modelled by `none`); a dict is rebuilt with its keys in
ascending order, each value normalized recursively except that the
value under the key `authors` is copied verbatim.  Since Python dict
keys are unique, iterating `sorted(json_dict_.keys())` and indexing the
dict is embodied as the stable sort of the (key, value) pairs by key. -/
def sorter_api_result : Json → Option Json
  | .null => some .null
  | .bool b => some (.bool b)
  | .num n => some (.num n)
  | .str s => some (.str s)
  | .arr l =>
    if l.all Json.isObjB && !(l.length == 0) then
      some (.arr (insortBy (dictsLeb (keysUnion l)) l))
    else
      match sorterList l with
      | none => none
      | some l' =>
        match insort l' with
        | none => none
        | some w => some (.arr w)
  | .obj kvs =>
    match sorterPairs (insortBy pairKeyLeb kvs) with
    | none => none
    | some ps => some (.obj ps)
termination_by v => sizeOf v
decreasing_by
  all_goals simp_wf
  all_goals try omega
  all_goals (rw [sizeOf_insortBy]; omega)

/-- `sorter_api_result(item) for item in json_dict_`: normalize the
elements left to right, propagating the first raise. -/
def sorterList : List Json → Option (List Json)
  | [] => some []
  | x :: xs =>
    match sorter_api_result x, sorterList xs with
    | some y, some ys => some (y :: ys)
    | _, _ => none
termination_by l => sizeOf l
decreasing_by
  all_goals simp_wf
  all_goals omega

/-- The dict branch body over the key-sorted pairs: the value under the
key `authors` is copied verbatim, every other value is normalized. -/
def sorterPairs : List (String × Json) → Option (List (String × Json))
  | [] => some []
  | (k, v) :: ps =>
    match (if k = "authors" then some v else sorter_api_result v), sorterPairs ps with
    | some w, some ws => some ((k, w) :: ws)
    | _, _ => none
termination_by ps => sizeOf ps
decreasing_by
  all_goals simp_wf
  all_goals omega
end

theorem sorter_obj_eq (kvs : List (String × Json)) :
    sorter_api_result (.obj kvs) =
      match sorterPairs (insortBy pairKeyLeb kvs) with
      | none => none
      | some ps => some (.obj ps) := by
  rw [sorter_api_result]

theorem sorter_arr_eq (l : List Json) :
    sorter_api_result (.arr l) =
      if l.all Json.isObjB && !(l.length == 0) then
        some (.arr (insortBy (dictsLeb (keysUnion l)) l))
      else
        match sorterList l with
        | none => none
        | some l' =>
          match insort l' with
          | none => none
          | some w => some (.arr w) := by
  rw [sorter_api_result]

/-- Embedding of `standardize_api_result` (`figshare/Utils.py` lines
11-23): every top-level value equal to the string `null` or to `None`
becomes the empty string; key order is untouched.  The Python function
performs these updates in place on its argument
(`api_result_dict = api_result` aliases the caller's dict, and
`api_result_dict[key] = ""` assigns through the alias), so its result
is also the post-call state of the caller's dict. -/
def standardize_api_result (api_result : List (String × Json)) : List (String × Json) :=
  api_result.map (fun p =>
    match p.2 with
    | .str s => if s = "null" then (p.1, Json.str "") else p
    | .null => (p.1, Json.str "")
    | _ => p)

/-- The caller-visible `version_data` after
`calculate_json_file_size(version_data)` (`figshare/Utils.py` line 279):
the call runs `standardize_api_result(version_data)`, which mutates the
caller's dict in place through the `api_result_dict = api_result`
alias; `sorter_api_result` then builds a fresh dict and writes nothing
back, so the post-call caller state is exactly the standardized dict. -/
def version_data_after_calculate_json_file_size
    (version_data : List (String × Json)) : List (String × Json) :=
  standardize_api_result version_data

/-- Claim C9: the claim says the normalization pipeline leaves the
caller's mapping unchanged; but `standardize_api_result` aliases its
argument and assigns through it, so `calculate_json_file_size` mutates
the caller's `version_data` whenever it holds a `None` (or `'null'`)
value: here the field `foo` changes from `None` to the empty string. -/
theorem normalization_pipeline_mutates_caller :
    version_data_after_calculate_json_file_size [("foo", Json.null)] =
      [("foo", Json.str "")] ∧
    [("foo", Json.str "")] ≠ [("foo", Json.null)] := by
  constructor
  · rfl
  · intro h
    exact absurd h (by simp)

/-- Claim C6: for a nonempty sequence whose elements are all mappings,
normalization sorts the sequence with the comparison `dictsLeb` over
the key tuples — the tuple of `str(d.get(k, ''))` across `keysUnion l`,
the ascending-sorted union of all keys appearing in any element — and
the result is a permutation of the original elements: they are sorted
as-is, not recursively normalized. -/
theorem sorter_on_uniform_dict_sequence (l : List Json) (hne : l ≠ [])
    (hall : ∀ x ∈ l, x.isObjB = true) :
    sorter_api_result (.arr l) = some (.arr (insortBy (dictsLeb (keysUnion l)) l)) ∧
    List.Perm (insortBy (dictsLeb (keysUnion l)) l) l := by
  constructor
  · rw [sorter_arr_eq, if_pos]
    rw [Bool.and_eq_true]
    constructor
    · exact List.all_eq_true.mpr hall
    · simp [List.length_eq_zero, hne]
  · exact insortBy_perm _ l

/-- Concrete uniform dict sequence for the C6 witness. -/
def demoDictSeq : List Json :=
  [Json.obj [("a", Json.str "y")], Json.obj [("a", Json.str "x")]]

/-- Claim C6, witness at a concrete two-element sequence of mappings. -/
theorem sorter_on_uniform_dict_sequence_witness :
    sorter_api_result (.arr demoDictSeq) =
      some (.arr (insortBy (dictsLeb (keysUnion demoDictSeq)) demoDictSeq)) :=
  (sorter_on_uniform_dict_sequence demoDictSeq (by simp [demoDictSeq]) (by decide)).1

theorem pairKeyLeb_total (a b : String × Json) :
    pairKeyLeb a b = true ∨ pairKeyLeb b a = true :=
  cmpLeb_total strCmpO strCmpO_laws a.1 b.1

theorem pairKeyLeb_trans (a b c : String × Json) (hab : pairKeyLeb a b = true)
    (hbc : pairKeyLeb b c = true) : pairKeyLeb a c = true :=
  cmpLeb_trans strCmpO strCmpO_laws a.1 b.1 c.1 hab hbc

/-- Claim C1: normalization of a mapping depends only on the key-value
binding, not on the key order: two mappings that are key-order
permutations of each other with identical values (and, as for every
Python dict, no duplicate keys) normalize to equal results — hence to
byte-identical serializations. -/
theorem sorter_invariant_under_key_permutation (p q : List (String × Json))
    (hperm : List.Perm p q) (hnd : (p.map Prod.fst).Nodup) :
    sorter_api_result (.obj p) = sorter_api_result (.obj q) := by
  have hsort : insortBy pairKeyLeb p = insortBy pairKeyLeb q := by
    refine @List.Perm.eq_of_sorted _ (fun a b => pairKeyLeb a b = true) _ _ ?_ ?_ ?_ ?_
    · intro a b ha hb hab hba
      have ha' : a ∈ p := ((insortBy_perm _ p).mem_iff).mp ha
      have hb' : b ∈ p := hperm.mem_iff.mpr (((insortBy_perm _ q).mem_iff).mp hb)
      have hkey : a.1 = b.1 := cmpLeb_antisymm strCmpO strCmpO_laws a.1 b.1 hab hba
      exact List.inj_on_of_nodup_map hnd ha' hb' hkey
    · exact insortBy_pairwise _ pairKeyLeb_total pairKeyLeb_trans p
    · exact insortBy_pairwise _ pairKeyLeb_total pairKeyLeb_trans q
    · exact ((insortBy_perm _ p).trans hperm).trans (insortBy_perm _ q).symm
  rw [sorter_obj_eq, sorter_obj_eq, hsort]

/-- Concrete key-order permutations for the C1 witness. -/
def demoDictP : List (String × Json) := [("b", Json.num 1), ("a", Json.num 2)]

/-- The same binding as `demoDictP` with the keys in the other order. -/
def demoDictQ : List (String × Json) := [("a", Json.num 2), ("b", Json.num 1)]

/-- Claim C1, witness at a concrete two-key mapping and its key-order
permutation. -/
theorem sorter_invariant_witness :
    sorter_api_result (.obj demoDictP) = sorter_api_result (.obj demoDictQ) :=
  sorter_invariant_under_key_permutation demoDictP demoDictQ
    (List.Perm.swap ("a", Json.num 2) ("b", Json.num 1) []) (by decide)

theorem perm_all_eq (l₁ l₂ : List α) (h : List.Perm l₁ l₂) (p : α → Bool) :
    l₁.all p = l₂.all p := by
  cases hb : l₂.all p
  · rw [List.all_eq_false] at hb ⊢
    obtain ⟨x, hx, hpx⟩ := hb
    exact ⟨x, h.mem_iff.mpr hx, hpx⟩
  · rw [List.all_eq_true] at hb ⊢
    exact fun x hx => hb x (h.mem_iff.mp hx)

theorem forall₂_mem_right {R : α → β → Prop} :
    ∀ {l : List α} {l' : List β}, List.Forall₂ R l l' → ∀ y ∈ l', ∃ x ∈ l, R x y := by
  intro l l' h
  induction h with
  | nil => intro y hy; cases hy
  | cons hr hrest ih =>
    intro y hy
    rcases List.mem_cons.mp hy with hy | hy
    · exact ⟨_, List.mem_cons_self _ _, hy ▸ hr⟩
    · obtain ⟨x, hx, hxy⟩ := ih y hy
      exact ⟨x, List.mem_cons_of_mem _ hx, hxy⟩

theorem sorter_null_eq : sorter_api_result .null = some .null := by
  rw [sorter_api_result]

theorem sorter_bool_eq (b : Bool) : sorter_api_result (.bool b) = some (.bool b) := by
  rw [sorter_api_result]

theorem sorter_num_eq (n : Int) : sorter_api_result (.num n) = some (.num n) := by
  rw [sorter_api_result]

theorem sorter_str_eq (s : String) : sorter_api_result (.str s) = some (.str s) := by
  rw [sorter_api_result]

theorem sorterList_nil_eq : sorterList [] = some [] := by
  rw [sorterList]

theorem sorterList_cons_eq (x : Json) (xs : List Json) :
    sorterList (x :: xs) =
      match sorter_api_result x, sorterList xs with
      | some y, some ys => some (y :: ys)
      | _, _ => none := by
  rw [sorterList]

/-- The per-entry action of the dict branch: the value under the key
`authors` is kept verbatim, every other value is normalized. -/
def objFieldVal (p : String × Json) : Option Json :=
  if p.1 = "authors" then some p.2 else sorter_api_result p.2

theorem sorterPairs_nil_eq : sorterPairs [] = some [] := by
  rw [sorterPairs]

theorem sorterPairs_cons_eq (k : String) (v : Json) (ps : List (String × Json)) :
    sorterPairs ((k, v) :: ps) =
      match objFieldVal (k, v), sorterPairs ps with
      | some w, some ws => some ((k, w) :: ws)
      | _, _ => none := by
  rw [sorterPairs]
  rfl

theorem sorter_isObjB (x y : Json) (h : sorter_api_result x = some y) :
    y.isObjB = x.isObjB := by
  cases x with
  | null => rw [sorter_null_eq] at h; cases h; rfl
  | bool b => rw [sorter_bool_eq] at h; cases h; rfl
  | num n => rw [sorter_num_eq] at h; cases h; rfl
  | str s => rw [sorter_str_eq] at h; cases h; rfl
  | arr l =>
    rw [sorter_arr_eq] at h
    split at h
    · cases h; rfl
    · cases hsl : sorterList l <;> rw [hsl] at h
      · cases h
      · rename_i l'
        dsimp only at h
        cases hin : insort l' <;> rw [hin] at h
        · cases h
        · cases h; rfl
  | obj kvs =>
    rw [sorter_obj_eq] at h
    cases hsp : sorterPairs (insortBy pairKeyLeb kvs) <;> rw [hsp] at h
    · cases h
    · cases h; rfl

theorem sorterList_forall₂ :
    ∀ (l l' : List Json), sorterList l = some l' →
      List.Forall₂ (fun x y => sorter_api_result x = some y) l l' := by
  intro l
  induction l with
  | nil =>
    intro l' h
    rw [sorterList_nil_eq] at h
    cases h
    exact List.Forall₂.nil
  | cons x xs ih =>
    intro l' h
    rw [sorterList_cons_eq] at h
    cases hx : sorter_api_result x <;> rw [hx] at h
    · cases h
    · cases hxs : sorterList xs <;> rw [hxs] at h
      · dsimp only at h; cases h
      · dsimp only at h
        cases h
        exact List.Forall₂.cons hx (ih _ hxs)

theorem sorterList_fix (l : List Json) (h : ∀ x ∈ l, sorter_api_result x = some x) :
    sorterList l = some l := by
  induction l with
  | nil => exact sorterList_nil_eq
  | cons x xs ih =>
    rw [sorterList_cons_eq, h x (List.mem_cons_self x xs),
      ih (fun a ha => h a (List.mem_cons_of_mem x ha))]

theorem sorterPairs_forall₂ :
    ∀ (ps ps' : List (String × Json)), sorterPairs ps = some ps' →
      List.Forall₂ (fun p p' => p'.1 = p.1 ∧ objFieldVal p = some p'.2) ps ps' := by
  intro ps
  induction ps with
  | nil =>
    intro ps' h
    rw [sorterPairs_nil_eq] at h
    cases h
    exact List.Forall₂.nil
  | cons p pt ih =>
    intro ps' h
    cases p with
    | mk k v =>
      rw [sorterPairs_cons_eq] at h
      cases hv : objFieldVal (k, v) <;> rw [hv] at h
      · cases h
      · cases hps : sorterPairs pt <;> rw [hps] at h
        · dsimp only at h; cases h
        · dsimp only at h
          cases h
          exact List.Forall₂.cons ⟨rfl, hv⟩ (ih _ hps)

theorem sorterPairs_fix (ps : List (String × Json))
    (h : ∀ p ∈ ps, objFieldVal p = some p.2) : sorterPairs ps = some ps := by
  induction ps with
  | nil => exact sorterPairs_nil_eq
  | cons p pt ih =>
    cases p with
    | mk k v =>
      rw [sorterPairs_cons_eq, h (k, v) (List.mem_cons_self _ _),
        ih (fun a ha => h a (List.mem_cons_of_mem _ ha))]

theorem forall₂_isObjB_eq (l l' : List Json)
    (h : List.Forall₂ (fun x y => sorter_api_result x = some y) l l') :
    l'.all Json.isObjB = l.all Json.isObjB := by
  induction h with
  | nil => rfl
  | cons hr hrest ih => simp only [List.all_cons, ih, sorter_isObjB _ _ hr]

theorem forall₂_fst_eq (ps ps' : List (String × Json))
    (h : List.Forall₂ (fun p p' => p'.1 = p.1 ∧ objFieldVal p = some p'.2) ps ps') :
    ps'.map Prod.fst = ps.map Prod.fst := by
  induction h with
  | nil => rfl
  | cons hr hrest ih => simp only [List.map_cons, hr.1, ih]

theorem sizeOf_mem_arr (x : Json) (l : List Json) (h : x ∈ l) :
    sizeOf x < sizeOf (Json.arr l) := by
  have h1 := List.sizeOf_lt_of_mem h
  have h2 : sizeOf (Json.arr l) = 1 + sizeOf l := by simp
  omega

theorem sizeOf_mem_obj (p : String × Json) (kvs : List (String × Json)) (h : p ∈ kvs) :
    sizeOf p.2 < sizeOf (Json.obj kvs) := by
  have h1 := List.sizeOf_lt_of_mem h
  have h2 : sizeOf (Json.obj kvs) = 1 + sizeOf kvs := by simp
  cases p with
  | mk k v =>
    have h3 : sizeOf (k, v) = 1 + sizeOf k + sizeOf v := by simp
    simp only []
    omega

theorem dictsLeb_total (ks : List String) (a b : Json) :
    dictsLeb ks a b = true ∨ dictsLeb ks b a = true :=
  cmpLeb_total tupCmpO tupCmpO_laws _ _

theorem dictsLeb_trans (ks : List String) (a b c : Json)
    (hab : dictsLeb ks a b = true) (hbc : dictsLeb ks b c = true) :
    dictsLeb ks a c = true :=
  cmpLeb_trans tupCmpO tupCmpO_laws _ _ _ hab hbc

theorem keysUnion_of_perm (w l : List Json) (h : List.Perm w l) :
    keysUnion w = keysUnion l :=
  insortBy_eq_of_perm strCmpO strCmpO_laws _ _
    ((List.Perm.flatMap_right jsonKeys h).dedup)

theorem sorter_fix_sized : ∀ n : Nat, ∀ v w : Json, sizeOf v ≤ n →
    sorter_api_result v = some w → sorter_api_result w = some w := by
  intro n
  induction n using Nat.strong_induction_on with
  | _ n ih =>
    intro v w hv hw
    cases v with
    | null => rw [sorter_null_eq] at hw; cases hw; exact sorter_null_eq
    | bool b => rw [sorter_bool_eq] at hw; cases hw; exact sorter_bool_eq b
    | num m => rw [sorter_num_eq] at hw; cases hw; exact sorter_num_eq m
    | str s => rw [sorter_str_eq] at hw; cases hw; exact sorter_str_eq s
    | arr l =>
      rw [sorter_arr_eq] at hw
      by_cases hcond : (l.all Json.isObjB && !(l.length == 0)) = true
      · rw [if_pos hcond] at hw
        cases hw
        have hperm : List.Perm (insortBy (dictsLeb (keysUnion l)) l) l := insortBy_perm _ l
        have hcond' : ((insortBy (dictsLeb (keysUnion l)) l).all Json.isObjB &&
            !((insortBy (dictsLeb (keysUnion l)) l).length == 0)) = true := by
          rw [perm_all_eq _ _ hperm, hperm.length_eq]
          exact hcond
        rw [sorter_arr_eq, if_pos hcond', keysUnion_of_perm _ _ hperm,
          insortBy_of_pairwise _ _
            (insortBy_pairwise _ (dictsLeb_total _) (dictsLeb_trans _) l)]
      · rw [if_neg hcond] at hw
        cases hsl : sorterList l <;> rw [hsl] at hw
        · cases hw
        · rename_i l'
          dsimp only at hw
          cases hin : insort l' <;> rw [hin] at hw
          · cases hw
          · rename_i w0
            cases hw
            have hf2 := sorterList_forall₂ l l' hsl
            have hpw : List.Perm w0 l' := insort_perm l' w0 hin
            have hcond0 : (w0.all Json.isObjB && !(w0.length == 0)) = false := by
              rw [perm_all_eq _ _ hpw, forall₂_isObjB_eq _ _ hf2,
                hpw.length_eq, ← hf2.length_eq]
              exact Bool.eq_false_iff.mpr hcond
            have hfix : ∀ x ∈ w0, sorter_api_result x = some x := by
              intro x hx
              obtain ⟨x0, hx0mem, hx0⟩ := forall₂_mem_right hf2 x (hpw.mem_iff.mp hx)
              have hlt : sizeOf x0 < n :=
                lt_of_lt_of_le (sizeOf_mem_arr x0 l hx0mem) hv
              exact ih (sizeOf x0) hlt x0 x (le_refl _) hx0
            rw [sorter_arr_eq, if_neg (by simp [hcond0]), sorterList_fix w0 hfix]
            dsimp only
            rw [insort_fix w0 (insort_chain l' w0 hin)]
    | obj kvs =>
      rw [sorter_obj_eq] at hw
      cases hsp : sorterPairs (insortBy pairKeyLeb kvs) <;> rw [hsp] at hw
      · cases hw
      · rename_i ps
        cases hw
        have hf2 := sorterPairs_forall₂ _ ps hsp
        have hsorted0 := insortBy_pairwise pairKeyLeb pairKeyLeb_total pairKeyLeb_trans kvs
        have hfst := forall₂_fst_eq _ ps hf2
        have hsorted : ps.Pairwise (fun a b => pairKeyLeb a b = true) := by
          have h1 : List.Pairwise (fun a b : String => cmpLeb strCmpO a b = true)
              ((insortBy pairKeyLeb kvs).map Prod.fst) :=
            List.pairwise_map.mpr hsorted0
          rw [← hfst] at h1
          exact List.pairwise_map.mp h1
        have hps_fix : insortBy pairKeyLeb ps = ps := insortBy_of_pairwise _ _ hsorted
        have hfieldfix : ∀ p ∈ ps, objFieldVal p = some p.2 := by
          intro p' hp'
          obtain ⟨p, hpmem, hkey, hval⟩ := forall₂_mem_right hf2 p' hp'
          have hpkvs : p ∈ kvs := ((insortBy_perm pairKeyLeb kvs).mem_iff).mp hpmem
          unfold objFieldVal at hval ⊢
          by_cases hauth : p.1 = "authors"
          · rw [if_pos hauth] at hval
            injection hval with hval2
            rw [hkey, if_pos hauth]
          · rw [if_neg hauth] at hval
            rw [hkey, if_neg hauth]
            have hlt : sizeOf p.2 < n :=
              lt_of_lt_of_le (sizeOf_mem_obj p kvs hpkvs) hv
            exact ih (sizeOf p.2) hlt p.2 p'.2 (le_refl _) hval
        rw [sorter_obj_eq, hps_fix, sorterPairs_fix ps hfieldfix]

/-- Claim C7: normalization is idempotent — for every value,
`sorter_api_result (sorter_api_result v)` equals `sorter_api_result v`
(in the `Option` embedding: composing through `bind` changes nothing,
so a successful normalization is a fixed point and a raising input
raises again). -/
theorem sorter_idempotent (v : Json) :
    (sorter_api_result v).bind sorter_api_result = sorter_api_result v := by
  cases hw : sorter_api_result v with
  | none => rfl
  | some w => exact sorter_fix_sized (sizeOf v) v w (le_refl _) hw
